import Mathlib

/-!
Shallow embedding of `models/toc.go` from the peach repository.

Go strings and byte slices are modelled as `List Char` (faithful for ASCII
data; the whitespace set is the ASCII whitespace of Go). Fallible operations that
can panic at runtime (out-of-range slicing) return `Option`, with `none`
marking the panic. External collaborators (the Markdown renderer, the
filesystem, the ini loader, git sync) are modelled as explicit parameters,
matching the treatment in the spec of them as opaque.
-/

namespace Peach

/-- Go strings / byte slices, modelled as lists of characters. -/
abbrev Str := List Char

/-- Convenience conversion from Lean string literals to the model type. -/
def s2l (s : String) : Str := s.data

/-- Whitespace predicate of Go `unicode.IsSpace`, restricted to ASCII:
space, tab, newline, vertical tab, form feed, carriage return. -/
def goIsSpace (c : Char) : Bool :=
  c = ' ' || c = '\t' || c = '\n' || c = '\x0b' || c = '\x0c' || c = '\r'

/-- Drop leading whitespace characters. -/
def trimLeftChars : Str → Str
  | [] => []
  | c :: cs => if goIsSpace c then trimLeftChars cs else c :: cs

/-- Go `bytes.TrimSpace` / `strings.TrimSpace`: drop whitespace from both
ends. -/
def goTrimSpace (l : Str) : Str :=
  (trimLeftChars (trimLeftChars l).reverse).reverse

/-- Whether `pat` occurs at the start of `s`. -/
def isPre : Str → Str → Bool
  | [], _ => true
  | _ :: _, [] => false
  | p :: ps, c :: cs => p = c && isPre ps cs

/-- First index at which `pat` occurs in `s`, if any
(Go `strings.Index` / `bytes.Index`, success case). -/
def strIndex (pat : Str) : Str → Option Nat
  | [] => if pat = [] then some 0 else none
  | c :: cs => if isPre pat (c :: cs) then some 0 else (strIndex pat cs).map (· + 1)

/-- Go `bytes.Index`: first index of `pat` in `s`, `-1` when absent. -/
def goIndex (pat s : Str) : Int :=
  match strIndex pat s with
  | some i => (i : Int)
  | none => -1

/-- The front-matter marker `---`. -/
def threeDashes : Str := ['-', '-', '-']

/-- Go `strings.Split(s, sep)` for a one-character separator. -/
def splitOnChar (sep : Char) : Str → List Str
  | [] => [[]]
  | c :: cs =>
    if c = sep then [] :: splitOnChar sep cs
    else
      match splitOnChar sep cs with
      | [] => [[c]]
      | s :: ss => (c :: s) :: ss

/-- Split a path on `/` (Go `strings.Split(name, "/")`). -/
def splitOnSlash (l : Str) : List Str := splitOnChar '/' l

/-- Split front-matter text into lines (Go `strings.Split(s, "\n")`). -/
def splitOnNl (l : Str) : List Str := splitOnChar '\n' l

/-- Go `strings.SplitN(opt, ":", 2)`: split at the first colon;
`none` when the line has no colon (Go would return a one-element slice). -/
def splitAtColon : Str → Option (Str × Str)
  | [] => none
  | c :: cs =>
    if c = ':' then some ([], cs)
    else (splitAtColon cs).map (fun p => (c :: p.1, p.2))

/-- Go `bytes.ToLower` / `strings.ToLower` (ASCII). -/
def toLowerStr (l : Str) : Str := l.map Char.toLower

/-- The recognized front-matter key. -/
def nameKey : Str := s2l "name"

/-- One iteration of the option loop in `parseNodeName`: a line is split on
the first `:`; a `name` key (after trimming) replaces the title with the
trimmed value; lines without `:` and other keys are ignored. -/
def applyOpt (title : Str) (opt : Str) : Str :=
  match splitAtColon opt with
  | none => title
  | some (k, v) => if goTrimSpace k = nameKey then goTrimSpace v else title

/-- The option loop of `parseNodeName`: fold `applyOpt` over the front-matter
lines, starting from the declared name of the node. -/
def parseOpts (name : Str) (opts : List Str) : Str :=
  opts.foldl applyOpt name

/-- The front-matter lines extracted by `parseNodeName` when the closing
marker ends at byte `e` of the trimmed document: the text strictly between
the markers, trimmed, split on newlines. -/
def fmOpts (data : Str) (e : Nat) : List Str :=
  splitOnNl (goTrimSpace ((data.drop 3).take (e - 3)))

/-- Embedding of `parseNodeName` (toc.go). The document is trimmed; without
a leading `---` marker the declared name and an EMPTY body are returned
(the code of this repository returns `[]byte("")`, not the document). With a
leading marker, Go computes `endIdx := bytes.Index(data[3:], "---") + 3`;
because of the `+ 3` the subsequent `endIdx == -1` check can never fire
(when no closing marker exists `endIdx` is `2`), and the slice
`data[3:endIdx]` then panics with bounds `[3:2]` — modelled as `none`. -/
def parseNodeName (name data0 : Str) : Option (Str × Str) :=
  let data := goTrimSpace data0
  if data.length < 3 || !(isPre threeDashes data) then some (name, [])
  else
    let endIdx : Int := goIndex threeDashes (data.drop 3) + 3
    if endIdx = -1 then some (name, [])
    else if endIdx < 3 then none
    else
      some (parseOpts name (fmOpts data endIdx.toNat), data.drop (endIdx.toNat + 3))

/-- The trimmed values of `name:` keys among a list of front-matter lines,
in order; `parseOpts` keeps the last of these (or the declared name). -/
def nameVals (opts : List Str) : List Str :=
  opts.filterMap fun opt =>
    match splitAtColon opt with
    | none => none
    | some (k, v) => if goTrimSpace k = nameKey then some (goTrimSpace v) else none

/-- The front-matter lines of a document, recomputed the way `parseNodeName`
computes them (meaningful when the document has a leading marker). -/
def optsOfDoc (data0 : Str) : List Str :=
  let data := goTrimSpace data0
  fmOpts data (goIndex threeDashes (data.drop 3) + 3).toNat

/-- Whether the trimmed document begins with the `---` marker. -/
def hasMarker (data0 : Str) : Bool :=
  let data := goTrimSpace data0
  decide (3 ≤ data.length) && isPre threeDashes data

/-- Embedding of the `Node` struct (toc.go). `content` is `none` when the Go
slice is `nil` (zero value, never assigned). -/
structure Node where
  Name : Str
  Title : Str
  content : Option Str
  Text : Str
  Plain : Bool
  FileName : Str
  Nodes : List Node

/-- The two opaque rendering passes used by `ReloadContent`:
`markdown(data)` and `string(bytes.ToLower(blackfriday.Markdown(data,
textRender, 0)))`. The renderer is an external collaborator, so it is a
parameter of the model. -/
structure Renderer where
  markdown : Str → Str
  textLower : Str → Str

/-- Outcome of one `ReloadContent` call: the read can fail (error returned,
node unchanged), `parseNodeName` can panic (process crash), or a new node
state is produced. -/
inductive ReloadOutcome where
  | readErr
  | panicked
  | ok (n : Node)

/-- Embedding of `Node.ReloadContent` (toc.go). `read` is the result of
`ioutil.ReadFile(n.FileName)` (`none` = read error). The title is always
updated; `Plain` is set from the trimmed body; `content` and `Text` are
assigned ONLY when the body is non-empty — on a plain body they keep their
previous values. -/
def Node.reloadContent (n : Node) (r : Renderer) (read : Option Str) : ReloadOutcome :=
  match read with
  | none => .readErr
  | some data =>
    match parseNodeName n.Name data with
    | none => .panicked
    | some (title, body) =>
      if (goTrimSpace body).isEmpty then
        .ok { n with Title := title, Plain := true }
      else
        .ok { n with Title := title, Plain := false,
                     content := some (r.markdown body),
                     Text := r.textLower body }

/-- `Node.Content` in production mode (`setting.ProdMode` true): no reload,
just the stored `content` field. -/
def Node.contentProd (n : Node) : Option Str := n.content

/-- Embedding of the `Toc` struct (toc.go). -/
structure Toc where
  RootPath : Str
  Lang : Str
  Nodes : List Node
  Pages : List Node

/-- The globals `GetDoc` consults: `Tocs[setting.Docs.Langs[0]]` (the
default-language tree) and `com.IsFile` on a backing path. -/
structure DocsEnv where
  defaultToc : Toc
  isFile : Str → Bool

/-- Go `strings.TrimPrefix(name, "/")`: drop one leading slash if present. -/
def trimOneSlash (s : Str) : Str :=
  match s with
  | c :: rest => if c = '/' then rest else c :: rest
  | [] => []

/-- The directory-node scan of `GetDoc`: first node with the given name. -/
def findNode : List Node → Str → Option Node
  | [], _ => none
  | n :: ns, nm => if n.Name = nm then some n else findNode ns nm

/-- The file-node double scan of `GetDoc`: over directory nodes in order, on
a directory-name match scan its children for the file name; if that
directory has no such child the OUTER loop continues (Go has no break). -/
def findFile : List Node → Str → Str → Option Node
  | [], _, _ => none
  | d :: ds, dn, fn =>
    if d.Name = dn then
      match findNode d.Nodes fn with
      | some c => some c
      | none => findFile ds dn fn
    else findFile ds dn fn

/-- Embedding of `Toc.GetDoc` (toc.go), fuel-indexed because the
missing-translation fallback re-enters `GetDoc` on the default-language
tree with the same name; `none` models non-termination (out of fuel).
The Go not-found outcome is the triple `("", nil, false)`, i.e.
`some ([], none, false)`. Content is served in production mode
(`Node.contentProd`). -/
def getDoc (env : DocsEnv) : Nat → Toc → Str → Option (Str × Option Str × Bool)
  | 0, _, _ => none
  | fuel + 1, t, name0 =>
    let name := trimOneSlash name0
    if name.length = 0 then
      match t.Nodes with
      | [] => some ([], none, false)
      | n :: _ =>
        if n.Plain then some ([], none, false)
        else some (n.Title, n.contentProd, false)
    else
      match splitOnSlash name with
      | [d] =>
        match findNode t.Nodes d with
        | some n => some (n.Title, n.contentProd, false)
        | none => some ([], none, false)
      | d :: f :: _ =>
        match findFile t.Nodes d f with
        | some c =>
          if env.isFile c.FileName then some (c.Title, c.contentProd, false)
          else (getDoc env fuel env.defaultToc name).map (fun r => (r.1, r.2.1, true))
        | none => some ([], none, false)
      | [] => some ([], none, false)

/-- Whether a `GetDoc` call on tree `t` with raw path `name0` reaches the
missing-translation fallback branch (two-segment lookup finds a file node
whose backing file does not exist). This is the branch structure of
`getDoc` itself, without the recursive call. -/
def hitsFallback (env : DocsEnv) (t : Toc) (name0 : Str) : Bool :=
  let name := trimOneSlash name0
  if name.length = 0 then false
  else
    match splitOnSlash name with
    | [_] => false
    | d :: f :: _ =>
      match findFile t.Nodes d f with
      | some c => !env.isFile c.FileName
      | none => false
    | [] => false

/-- Embedding of the `SearchResult` struct (toc.go). -/
structure SearchResult where
  Title : Str
  Path : Str
  Match : Str
deriving DecidableEq, Repr

/-- Embedding of `adjustRange` (toc.go), over Go ints. -/
def adjustRange (start e length : Int) : Int × Int :=
  let s1 := start - 20
  let s2 := if s1 < 0 then 0 else s1
  let e1 := e + 230
  let e2 := if e1 > length then length else e1
  (s2, e2)

/-- Go slicing `s[start:end]` (both indices in range). -/
def sliceStr (l : Str) (s e : Nat) : Str := (l.take e).drop s

/-- Snippet extraction of `Search`: adjust the match range
`[idx, idx+len(q))` and slice the node text. -/
def snippet (text : Str) (idx qlen : Nat) : Str :=
  let se := adjustRange (idx : Int) ((idx : Int) + (qlen : Int)) (text.length : Int)
  sliceStr text se.1.toNat se.2.toNat

/-- Go `path.Join(a, b)` for clean segment names (no embedded slashes or
dot segments; empty parts are skipped, as in Go). -/
def pathJoin (a b : Str) : Str :=
  if a = [] then b else if b = [] then a else a ++ '/' :: b

/-- Directory pass body of `Search`: a result when the lowercased
plain text contains the query, path = directory name. -/
def dirHit (q : Str) (n : Node) : Option SearchResult :=
  match strIndex q n.Text with
  | some idx => some ⟨n.Title, n.Name, snippet n.Text idx q.length⟩
  | none => none

/-- File pass body of `Search`: path = path.Join(dir name, file name). -/
def fileHit (q : Str) (d c : Node) : Option SearchResult :=
  match strIndex q c.Text with
  | some idx => some ⟨c.Title, pathJoin d.Name c.Name, snippet c.Text idx q.length⟩
  | none => none

/-- One iteration of a `Search` loop: when the probe yields a result it is
appended to the accumulator, otherwise the accumulator is unchanged. -/
def accHit {α β : Type} (g : α → Option β) (acc : List β) (x : α) : List β :=
  match g x with
  | some r => acc ++ [r]
  | none => acc

/-- Embedding of `Toc.Search` (toc.go): empty query short-circuits to nil;
otherwise the query is lowercased, a first loop appends one result per
matching directory node, a second nested loop appends one result per
matching file node. -/
def searchToc (t : Toc) (q0 : Str) : List SearchResult :=
  if q0.length = 0 then []
  else
    let q := toLowerStr q0
    let r1 := t.Nodes.foldl (accHit (dirHit q)) []
    t.Nodes.foldl (fun acc d => d.Nodes.foldl (accHit (fileHit q d)) acc) r1

/-- The pattern `pat` occurs in `l` at offset `i`, and at no earlier
offset. -/
def firstOccurAt (pat l : Str) (i : Nat) : Prop :=
  isPre pat (l.drop i) = true ∧ ∀ j, j < i → isPre pat (l.drop j) = false

/-- The process-wide `Tocs` map, as an association list from language code
to tree. -/
abbrev Registry := List (Str × Toc)

/-- Go map lookup `Tocs[lang]`. -/
def lookupReg (reg : Registry) (lang : Str) : Option Toc :=
  match reg.find? (fun p => decide (p.1 = lang)) with
  | some p => some p.2
  | none => none

/-- Error taxonomy of `ReloadDocs`. -/
inductive ReloadErr where
  | absErr
  | syncErr
  | srcMissing
  | tocErr (msg : Str)
deriving DecidableEq

/-- The external effects `ReloadDocs` depends on: whether the source is
remote, whether `filepath.Abs` / git clone-or-pull succeed, whether the
local root is a directory, and the outcome of `initToc` (the Loader). -/
structure ReloadEnv where
  isRemote : Bool
  absOk : Bool
  gitOk : Bool
  rootIsDir : Bool
  loadResult : Except Str Registry

/-- Embedding of `ReloadDocs` (toc.go): each failing step returns the
corresponding error with the previously installed registry untouched; only
after `initToc` succeeds is `Tocs` reassigned. -/
def reloadDocs (env : ReloadEnv) (tocs : Registry) : Registry × Option ReloadErr :=
  if env.isRemote && !env.absOk then (tocs, some .absErr)
  else if env.isRemote && !env.gitOk then (tocs, some .syncErr)
  else if !env.rootIsDir then (tocs, some .srcMissing)
  else
    match env.loadResult with
    | .error e => (tocs, some (.tocErr e))
    | .ok newTocs => (newTocs, none)

/-- A caller-side `GetDoc(lang, path)`: read the global registry, resolve
the requested and default trees, and run `getDoc` (as the HTTP layer does
with `Tocs[lang].GetDoc`). -/
def getDocReg (reg : Registry) (fs : Str → Bool) (defaultLang : Str)
    (fuel : Nat) (lang nm : Str) : Option (Str × Option Str × Bool) :=
  match lookupReg reg lang, lookupReg reg defaultLang with
  | some t, some dt => getDoc { defaultToc := dt, isFile := fs } fuel t nm
  | _, _ => none

/-- A caller-side `Search(lang, q)` against the global registry. -/
def searchReg (reg : Registry) (lang q : Str) : Option (List SearchResult) :=
  (lookupReg reg lang).map (fun t => searchToc t q)

/-- Last element of a list, or a default: the value computed by the
front-matter option fold for the title. -/
def lastOr (dflt : Str) : List Str → Str
  | [] => dflt
  | v :: vs => lastOr v vs

/-! Concrete instances used by witnesses and counterexamples. -/

/-- A deterministic stand-in for the opaque Markdown renderer. -/
def rId : Renderer := { markdown := fun b => b, textLower := fun b => toLowerStr b }

/-- A freshly constructed file node, as `initToc` builds them: only `Name`
and `FileName` set, all other fields at their zero values. -/
def nFresh : Node :=
  { Name := s2l "doc", Title := [], content := none, Text := [],
    Plain := false, FileName := s2l "doc.md", Nodes := [] }

/-- State of `nFresh` after reloading a document with front matter and the
non-empty body `"\nx"`. -/
def n5a : Node :=
  { nFresh with Title := s2l "doc", Plain := false,
                content := some (s2l "\nx"), Text := toLowerStr (s2l "\nx") }

/-- State of `n5a` after a development-mode re-read of a now-empty file:
`Plain` flips to true but `content` and `Text` keep their stale values. -/
def n5b : Node := { n5a with Plain := true }

/-- State of `nFresh` after reloading a document whose front matter has a
`name:` key with a blank value: the title becomes empty. -/
def n4x : Node :=
  { nFresh with Title := [], Plain := false,
                content := some (s2l "x"), Text := toLowerStr (s2l "x") }

/-- State of `nFresh` after reloading an empty document (plain). -/
def n5w : Node := { nFresh with Title := s2l "doc", Plain := true }

/-- A file node whose backing file is missing in every language. -/
def nB : Node :=
  { Name := s2l "b", Title := s2l "TB", content := some (s2l "CB"),
    Text := s2l "tb", Plain := false, FileName := s2l "fb", Nodes := [] }

/-- A directory node holding `nB`. -/
def nA : Node :=
  { Name := s2l "a", Title := s2l "TA", content := some (s2l "CA"),
    Text := s2l "ta", Plain := false, FileName := s2l "fa", Nodes := [nB] }

/-- A tree whose two-segment lookup of `a/b` always finds a node with a
missing backing file. -/
def tocL : Toc := { RootPath := [], Lang := s2l "en", Nodes := [nA], Pages := [] }

/-- Globals where `tocL` is itself the default-language tree and no backing
file exists: the `GetDoc` fallback re-enters the same lookup forever. -/
def envL : DocsEnv := { defaultToc := tocL, isFile := fun _ => false }

/-- A file node `s` under the default language, backing file present. -/
def nS : Node :=
  { Name := s2l "s", Title := s2l "TS", content := some (s2l "CS"),
    Text := s2l "ts", Plain := false, FileName := s2l "fs-en", Nodes := [] }

/-- Directory `g` of the default-language tree. -/
def nGen : Node :=
  { Name := s2l "g", Title := s2l "TGen", content := some (s2l "CGen"),
    Text := s2l "tgen", Plain := false, FileName := s2l "fg-en", Nodes := [nS] }

/-- The default-language tree: `g/s` resolves with an existing file. -/
def tocEn : Toc := { RootPath := [], Lang := s2l "en", Nodes := [nGen], Pages := [] }

/-- A file node `s` under the requested language, backing file missing. -/
def nSfr : Node :=
  { Name := s2l "s", Title := s2l "TSfr", content := some (s2l "CSfr"),
    Text := s2l "tsfr", Plain := false, FileName := s2l "fs-fr", Nodes := [] }

/-- Directory `g` of the requested-language tree. -/
def nGfr : Node :=
  { Name := s2l "g", Title := s2l "TGfr", content := some (s2l "CGfr"),
    Text := s2l "tgfr", Plain := false, FileName := s2l "fg-fr", Nodes := [nSfr] }

/-- The requested-language tree: `g/s` finds a node whose file is absent. -/
def tocFr : Toc := { RootPath := [], Lang := s2l "fr", Nodes := [nGfr], Pages := [] }

/-- Globals for the fallback witness: default tree `tocEn`, and only the
default-language file `fs-en` exists on disk. -/
def envW : DocsEnv := { defaultToc := tocEn, isFile := fun fn => decide (fn = s2l "fs-en") }

/-- A file node `x` under an empty-named directory, backing file absent. -/
def cX : Node :=
  { Name := s2l "x", Title := s2l "TcX", content := some (s2l "CcX"),
    Text := [], Plain := false, FileName := s2l "fx", Nodes := [] }

/-- A directory node with the empty name (an ini value can be blank). -/
def dirE : Node :=
  { Name := [], Title := s2l "TE", content := none,
    Text := [], Plain := false, FileName := s2l "fe", Nodes := [cX] }

/-- Requested-language tree for the double-slash counterexample. -/
def tocT : Toc := { RootPath := [], Lang := s2l "fr", Nodes := [dirE], Pages := [] }

/-- A file node `y` under default directory `x`, backing file present. -/
def cY : Node :=
  { Name := s2l "y", Title := s2l "TY", content := some (s2l "CY"),
    Text := [], Plain := false, FileName := s2l "fy", Nodes := [] }

/-- Default-language directory `x` holding `cY`. -/
def dX : Node :=
  { Name := s2l "x", Title := s2l "TX", content := some (s2l "CX"),
    Text := [], Plain := false, FileName := s2l "fdx", Nodes := [cY] }

/-- Default-language tree for the double-slash counterexample. -/
def tocD : Toc := { RootPath := [], Lang := s2l "en", Nodes := [dX], Pages := [] }

/-- Globals for the double-slash counterexample: only `fy` exists. -/
def envX : DocsEnv := { defaultToc := tocD, isFile := fun fn => decide (fn = s2l "fy") }

/-- A file node used by search witnesses. -/
def sn2 : Node :=
  { Name := s2l "setup", Title := s2l "S", content := none,
    Text := s2l "delta beta", Plain := false, FileName := [], Nodes := [] }

/-- A directory node used by search witnesses. -/
def sn1 : Node :=
  { Name := s2l "guide", Title := s2l "G", content := none,
    Text := s2l "alpha beta gamma", Plain := false, FileName := [], Nodes := [sn2] }

/-- A tree used by search witnesses. -/
def tocS : Toc := { RootPath := [], Lang := [], Nodes := [sn1], Pages := [] }

/-- A reload environment whose Loader fails on a malformed index. -/
def env9 : ReloadEnv :=
  { isRemote := false, absOk := true, gitOk := true, rootIsDir := true,
    loadResult := .error (s2l "Fail to load TOC.ini") }

/-- A previously installed registry. -/
def reg9 : Registry := [(s2l "en", tocEn), (s2l "fr", tocFr)]

/-! Helper lemmas. -/

/-- The option fold keeps the last `name:` value, or the starting title. -/
theorem parseOpts_eq_lastOr (opts : List Str) :
    ∀ name : Str, parseOpts name opts = lastOr name (nameVals opts) := by
  induction opts with
  | nil => intro name; rfl
  | cons o os ih =>
    intro name
    show parseOpts (applyOpt name o) os = lastOr name (nameVals (o :: os))
    rw [ih]
    unfold applyOpt nameVals
    cases hsc : splitAtColon o with
    | none => simp [hsc, nameVals]
    | some kv =>
      obtain ⟨k, v⟩ := kv
      by_cases hk : goTrimSpace k = nameKey
      · simp [hsc, hk, nameVals, lastOr]
      · simp [hsc, hk, nameVals]

/-- `lastOr` of non-empty candidates starting from a non-empty default is
non-empty. -/
theorem lastOr_ne_nil (l : List Str) :
    ∀ dflt : Str, dflt ≠ [] → (∀ v ∈ l, v ≠ []) → lastOr dflt l ≠ [] := by
  induction l with
  | nil => intro dflt hd _; exact hd
  | cons v vs ih =>
    intro dflt _ hv
    exact ih v (hv v (.head vs)) (fun w hw => hv w (.tail v hw))

/-- Go `bytes.Index` never returns anything below `-1`. -/
theorem goIndex_ge_neg_one (pat s : Str) : -1 ≤ goIndex pat s := by
  unfold goIndex
  cases h : strIndex pat s with
  | none => simp [h]
  | some i => simp [h]; omega

/-! Claim theorems: front-matter handling. -/

/-- C1: for a document whose trimmed bytes begin with the front-matter
opening marker `---` but contain no closing `---`, the claim (and the dead
`endIdx == -1` branch of the code) expect `parseNodeName` to return the
declared name and an empty body; the code instead computes `endIdx = 2`
and panics slicing `data[3:2]`, modelled as `none`. This theorem evaluates
the code at such an input, exhibiting the panic. -/
theorem parseNodeName_unclosed_marker :
    parseNodeName (s2l "guide") (s2l "---abc") = none := by decide

/-- C4 (counterexample): a front-matter `name:` key with a blank value
produces a node whose title is the empty string after content resolution,
refuting the claim that the title is non-empty in all cases. -/
theorem node_title_empty :
    nFresh.reloadContent rId (some (s2l "---\nname:\n---x")) = .ok n4x ∧ n4x.Title = [] :=
  ⟨rfl, rfl⟩

/-- The boolean guard of `parseNodeName` is the negation of `hasMarker`. -/
theorem hasMarker_eq (data0 : Str) :
    hasMarker data0 =
      !(decide ((goTrimSpace data0).length < 3) || !(isPre threeDashes (goTrimSpace data0))) := by
  simp only [hasMarker]
  cases hp : isPre threeDashes (goTrimSpace data0)
  · simp
  · simp [← decide_not, Nat.not_lt]

/-- C4 (amended): after content resolution the title is the trimmed value
of the LAST `name:` key of the front matter when one is present, and the
declared name otherwise; it is non-empty provided the declared name is
non-empty and every `name:` value is non-blank. -/
theorem parseNodeName_title (name data0 title body : Str)
    (h : parseNodeName name data0 = some (title, body))
    (hn : name ≠ [])
    (hv : ∀ v ∈ nameVals (optsOfDoc data0), v ≠ []) :
    title = (if hasMarker data0 then lastOr name (nameVals (optsOfDoc data0)) else name) ∧
    title ≠ [] := by
  have hgix := goIndex_ge_neg_one threeDashes ((goTrimSpace data0).drop 3)
  simp only [parseNodeName] at h
  split at h
  next hg =>
    have hm : hasMarker data0 = false := by rw [hasMarker_eq, hg]; rfl
    injection h with h1
    injection h1 with ha hb
    subst ha
    rw [hm]
    exact ⟨by simp, hn⟩
  next hg =>
    have hm : hasMarker data0 = true := by
      rw [hasMarker_eq, Bool.not_eq_true _ |>.mp hg]; rfl
    split at h
    next hneg => omega
    next hneg =>
      split at h
      next hlt => exact absurd h (by simp)
      next hlt =>
        injection h with h1
        injection h1 with ha hb
        rw [hm, if_pos rfl]
        constructor
        · rw [← ha, parseOpts_eq_lastOr]; rfl
        · rw [← ha, parseOpts_eq_lastOr]
          exact lastOr_ne_nil _ name hn hv

/-- C4 (witness): a document with front matter `name: Hi` resolves to the
title `Hi`, which is non-empty. -/
theorem parseNodeName_title_witness :
    (s2l "Hi" = (if hasMarker (s2l "---\nname: Hi\n---\nbody")
        then lastOr (s2l "doc") (nameVals (optsOfDoc (s2l "---\nname: Hi\n---\nbody")))
        else s2l "doc")) ∧ s2l "Hi" ≠ [] :=
  parseNodeName_title (s2l "doc") (s2l "---\nname: Hi\n---\nbody") (s2l "Hi") (s2l "\nbody")
    (by decide) (by decide) (by decide)

/-- C5 (counterexample): a node whose first resolution has a non-empty body
and whose development-mode re-read finds an empty body ends with
`Plain = true` while `content` still holds the previously rendered bytes,
and `Content()` in production mode still yields them — refuting the
invariant that `isPlain` implies absent content for every sequence of
content resolutions. -/
theorem plain_node_stale_content :
    nFresh.reloadContent rId (some (s2l "---\n---\nx")) = .ok n5a ∧
    n5a.reloadContent rId (some []) = .ok n5b ∧
    n5b.Plain = true ∧ n5b.content = some (s2l "\nx") ∧ n5b.contentProd.isSome = true :=
  ⟨rfl, rfl, rfl, rfl, rfl⟩

/-- C5 (amended): for a node whose memoized fields are still empty (as
`initToc` constructs them), a single content resolution that finds an
empty body leaves the node with `Plain = true`, no rendered content, no
plain text, and a production-mode `Content()` of nil. -/
theorem reload_plain_keeps_empty (r : Renderer) (n : Node) (data : Str) (m : Node)
    (hc : n.content = none) (ht : n.Text = [])
    (h : n.reloadContent r (some data) = .ok m) (hp : m.Plain = true) :
    m.content = none ∧ m.Text = [] ∧ m.contentProd = none := by
  simp only [Node.reloadContent] at h
  cases hpn : parseNodeName n.Name data with
  | none => rw [hpn] at h; exact ReloadOutcome.noConfusion h
  | some tb =>
    obtain ⟨title, body⟩ := tb
    simp only [hpn] at h
    by_cases hb : (goTrimSpace body).isEmpty
    · rw [if_pos hb] at h
      injection h with h1
      subst h1
      exact ⟨hc, ht, hc⟩
    · rw [if_neg hb] at h
      injection h with h1
      rw [← h1] at hp
      exact absurd hp (by simp)

/-- C5 (witness): reloading an empty document on a fresh node yields a plain
node with no content, no text, and nil production-mode content. -/
theorem reload_plain_keeps_empty_witness :
    n5w.content = none ∧ n5w.Text = [] ∧ n5w.contentProd = none :=
  reload_plain_keeps_empty rId nFresh [] n5w rfl rfl rfl rfl

/-! Helper lemmas about path splitting and `getDoc`. -/

/-- `splitOnChar` never returns the empty list. -/
theorem splitOnChar_ne_nil (sep : Char) (l : Str) : splitOnChar sep l ≠ [] := by
  induction l with
  | nil => simp [splitOnChar]
  | cons c cs ih =>
    simp only [splitOnChar]
    split
    · simp
    · split
      · simp
      · simp

/-- The separator never occurs inside a returned segment. -/
theorem not_mem_of_mem_splitOnChar (sep : Char) (l : Str) :
    ∀ s ∈ splitOnChar sep l, sep ∉ s := by
  induction l with
  | nil =>
    intro s hs
    simp [splitOnChar] at hs
    simp [hs]
  | cons c cs ih =>
    intro s hs
    by_cases hc : c = sep
    · simp only [splitOnChar, if_pos hc] at hs
      rcases List.mem_cons.mp hs with h1 | h1
      · simp [h1]
      · exact ih s h1
    · simp only [splitOnChar, if_neg hc] at hs
      cases hrec : splitOnChar sep cs with
      | nil => exact absurd hrec (splitOnChar_ne_nil sep cs)
      | cons s0 ss =>
        rw [hrec] at hs
        rcases List.mem_cons.mp hs with h1 | h1
        · subst h1
          intro hmem
          rcases List.mem_cons.mp hmem with h2 | h2
          · exact hc h2.symm
          · exact ih s0 (hrec ▸ List.mem_cons_self s0 ss) h2
        · exact ih s (hrec ▸ List.mem_cons_of_mem s0 h1)

/-- Splitting `d ++ sep :: f` when the separator does not occur in `d`. -/
theorem splitOnChar_append (sep : Char) (f : Str) :
    ∀ d : Str, sep ∉ d → splitOnChar sep (d ++ sep :: f) = d :: splitOnChar sep f := by
  intro d
  induction d with
  | nil => intro _; simp [splitOnChar]
  | cons c d' ih =>
    intro hd
    have hc : ¬c = sep := fun hcs => hd (hcs ▸ List.mem_cons_self c d')
    have hd' : sep ∉ d' := fun hm => hd (List.mem_cons_of_mem c hm)
    simp only [List.cons_append, splitOnChar, if_neg hc, List.append_eq]
    rw [ih hd']

/-- A separator-free string splits to the one-element list of itself. -/
theorem splitOnChar_no_sep (sep : Char) :
    ∀ f : Str, sep ∉ f → splitOnChar sep f = [f] := by
  intro f
  induction f with
  | nil => intro _; rfl
  | cons c f' ih =>
    intro hf
    have hc : ¬c = sep := fun hcs => hf (hcs ▸ List.mem_cons_self c f')
    have hf' : sep ∉ f' := fun hm => hf (List.mem_cons_of_mem c hm)
    simp only [splitOnChar, if_neg hc, ih hf']

/-- When the first path segment is non-empty the path does not start with a
slash, so the one-slash trim is the identity. -/
theorem trimOneSlash_eq_self (l x : Str) (xs : List Str)
    (h : splitOnSlash l = x :: xs) (hx : x ≠ []) : trimOneSlash l = l := by
  cases l with
  | nil => rfl
  | cons c cs =>
    by_cases hc : c = '/'
    · exfalso
      simp only [splitOnSlash, splitOnChar, if_pos hc] at h
      injection h with h1
      exact hx h1.symm
    · simp [trimOneSlash, hc]

/-- A path with at least two segments is non-empty. -/
theorem ne_nil_of_two_seg (l : Str) (d f : Str) (rest : List Str)
    (h : splitOnSlash l = d :: f :: rest) : l ≠ [] := by
  intro hl
  subst hl
  simp only [splitOnSlash, splitOnChar] at h
  injection h with _ h2
  exact List.noConfusion h2

/-- Unfolding of `getDoc` on a path with at least two segments. -/
theorem getDoc_two_seg (env : DocsEnv) (fuel : Nat) (t : Toc) (name0 d f : Str)
    (rest : List Str) (h : splitOnSlash (trimOneSlash name0) = d :: f :: rest) :
    getDoc env (fuel + 1) t name0 =
      match findFile t.Nodes d f with
      | some c =>
        if env.isFile c.FileName then some (c.Title, c.contentProd, false)
        else (getDoc env fuel env.defaultToc (trimOneSlash name0)).map (fun r => (r.1, r.2.1, true))
      | none => some ([], none, false) := by
  have hne : trimOneSlash name0 ≠ [] := ne_nil_of_two_seg _ _ _ _ h
  simp only [getDoc]
  rw [if_neg (by rw [List.length_eq_zero]; exact hne), h]

/-- A `GetDoc` call that does not reach the missing-translation fallback
terminates within any positive fuel. -/
theorem noFallback_isSome (env : DocsEnv) (t' : Toc) (nm : Str) (fuel : Nat)
    (h : hitsFallback env t' nm = false) : (getDoc env (fuel + 1) t' nm).isSome = true := by
  simp only [hitsFallback] at h
  simp only [getDoc]
  by_cases h0 : (trimOneSlash nm).length = 0
  · rw [if_pos h0]
    cases t'.Nodes with
    | nil => rfl
    | cons n ns => by_cases hp : n.Plain = true <;> simp [hp]
  · rw [if_neg h0]
    rw [if_neg h0] at h
    cases hs : splitOnSlash (trimOneSlash nm) with
    | nil => simp
    | cons d tail =>
      cases tail with
      | nil =>
        cases hfn : findNode t'.Nodes d with
        | some n => simp [hfn]
        | none => simp [hfn]
      | cons f rest =>
        rw [hs] at h
        cases hff : findFile t'.Nodes d f with
        | none => simp [hff]
        | some c =>
          simp only [hff] at h
          simp at h
          simp [hff, h]

/-! Claim theorems: `GetDoc`. -/

/-- C2: on a two-segment path whose file node is found but whose backing
file does not exist, `GetDoc` re-issues the same two-segment lookup against
the default-language tree and returns that result with the fallback flag
forced to `true`. -/
theorem getDoc_missing_translation_fallback (env : DocsEnv) (fuel : Nat) (t : Toc)
    (name0 d f : Str) (c : Node)
    (hsplit : splitOnSlash (trimOneSlash name0) = [d, f])
    (hfind : findFile t.Nodes d f = some c)
    (hmiss : env.isFile c.FileName = false) :
    getDoc env (fuel + 1) t name0 =
      (getDoc env fuel env.defaultToc (trimOneSlash name0)).map (fun r => (r.1, r.2.1, true)) := by
  rw [getDoc_two_seg env fuel t name0 d f [] hsplit]
  simp [hfind, hmiss]

/-- C2 (witness): `g/s` is missing under `fr` but present under the default
language `en`; the lookup is re-issued against the default tree with
fallback `true`. -/
theorem getDoc_missing_translation_fallback_witness :
    getDoc envW 3 tocFr (s2l "g/s") =
      (getDoc envW 2 envW.defaultToc (trimOneSlash (s2l "g/s"))).map
        (fun r => (r.1, r.2.1, true)) :=
  getDoc_missing_translation_fallback envW 2 tocFr (s2l "g/s") (s2l "g") (s2l "s") nSfr
    (by decide) rfl rfl

/-- C6: on the empty path `GetDoc` returns the title of the first directory node
and production-mode content with fallback flag `false` when a first node
exists and is not plain, and the not-found triple `("", nil, false)` when
the tree has no nodes or the first node is plain. -/
theorem getDoc_empty_path (env : DocsEnv) (t : Toc) (fuel : Nat) :
    getDoc env (fuel + 1) t [] =
      match t.Nodes with
      | [] => some ([], none, false)
      | n :: _ =>
        if n.Plain then some ([], none, false) else some (n.Title, n.contentProd, false) := by
  simp only [getDoc]
  cases t.Nodes with
  | nil => rfl
  | cons n ns => by_cases hp : n.Plain = true <;> simp [hp, trimOneSlash]

/-- C3 (counterexample): when the default-language tree itself has the
missing-backing-file condition for the path, the fallback re-enters the
identical call and `GetDoc` never terminates — no fuel bound suffices —
refuting the claim that recursion depth is bounded by one extra hop in that
case. -/
theorem getDoc_default_missing_loops :
    ¬ ∃ fuel : Nat, (getDoc envL fuel tocL (s2l "a/b")).isSome = true := by
  have key : ∀ fuel : Nat, getDoc envL fuel tocL (s2l "a/b") = none := by
    intro fuel
    induction fuel with
    | zero => rfl
    | succ k ih =>
      rw [getDoc_two_seg envL k tocL (s2l "a/b") (s2l "a") (s2l "b") [] (by decide)]
      have hff : findFile tocL.Nodes (s2l "a") (s2l "b") = some nB := rfl
      have hmiss : envL.isFile nB.FileName = false := rfl
      simp only [hff, hmiss, Bool.false_eq_true, if_false]
      rw [show envL.defaultToc = tocL from rfl,
          show trimOneSlash (s2l "a/b") = s2l "a/b" from rfl, ih]
      rfl
  rintro h
  obtain ⟨fuel, hf⟩ := h
  rw [key fuel] at hf
  exact Bool.noConfusion hf

/-- C3 (amended): `GetDoc` terminates with at most one extra lookup (fuel 2
suffices, hence any fuel of at least 2) PROVIDED the default-language tree
does not itself reach the missing-backing-file fallback for the trimmed
path; without that proviso the fallback recursion is unbounded. -/
theorem getDoc_bounded_fallback (env : DocsEnv) (t : Toc) (name0 : Str) (fuel : Nat)
    (hf : 2 ≤ fuel)
    (h : hitsFallback env env.defaultToc (trimOneSlash name0) = false) :
    (getDoc env fuel t name0).isSome = true := by
  obtain ⟨k, rfl⟩ : ∃ k, fuel = k + 2 := ⟨fuel - 2, by omega⟩
  show (getDoc env (k + 1 + 1) t name0).isSome = true
  simp only [getDoc]
  by_cases h0 : (trimOneSlash name0).length = 0
  · rw [if_pos h0]
    cases t.Nodes with
    | nil => rfl
    | cons n ns => by_cases hp : n.Plain = true <;> simp [hp]
  · rw [if_neg h0]
    cases hs : splitOnSlash (trimOneSlash name0) with
    | nil => simp
    | cons d tail =>
      cases tail with
      | nil =>
        cases hfn : findNode t.Nodes d with
        | some n => simp [hfn]
        | none => simp [hfn]
      | cons f rest =>
        cases hff : findFile t.Nodes d f with
        | none => simp [hff]
        | some c =>
          by_cases hif : env.isFile c.FileName = true
          · simp [hff, hif]
          · simp only [Bool.not_eq_true] at hif
            simp only [hff, hif, Bool.false_eq_true, if_false, Option.isSome_map']
            exact noFallback_isSome env env.defaultToc (trimOneSlash name0) k h

/-- C3 (witness): fuel 2 resolves the fallback lookup of `g/s` from `fr`,
since the default tree serves it without a further fallback. -/
theorem getDoc_bounded_fallback_witness :
    (getDoc envW 2 tocFr (s2l "g/s")).isSome = true :=
  getDoc_bounded_fallback envW tocFr (s2l "g/s") 2 (by decide) (by decide)

/-- C10 (counterexample): a path whose first segment is empty (double
leading slash) is NOT equivalent to its two-segment truncation: the
fallback re-trims one more slash on the full path than on the truncated
one, so the two lookups can return different documents. -/
theorem getDoc_truncation_differs :
    getDoc envX 5 tocT (s2l "//x/y") ≠ getDoc envX 5 tocT (s2l "//x") := by decide

/-- C10 (amended): for a path splitting into at least two segments with a
NON-EMPTY first segment, `GetDoc` returns exactly the result of the path
truncated to its first two segments: only the first segment is matched
against directory names and the second against child file names, extra
segments are ignored. -/
theorem getDoc_ignores_extra_segments (env : DocsEnv) (fuel : Nat) (t : Toc)
    (name0 d f : Str) (rest : List Str)
    (h : splitOnSlash (trimOneSlash name0) = d :: f :: rest)
    (hd : d ≠ []) :
    getDoc env fuel t name0 = getDoc env fuel t (d ++ '/' :: f) := by
  induction fuel generalizing t name0 with
  | zero => rfl
  | succ k ih =>
    have h' : splitOnChar '/' (trimOneSlash name0) = d :: f :: rest := h
    have hdn : ('/' : Char) ∉ d :=
      not_mem_of_mem_splitOnChar '/' (trimOneSlash name0) d (h' ▸ List.mem_cons_self d _)
    have hfn : ('/' : Char) ∉ f :=
      not_mem_of_mem_splitOnChar '/' (trimOneSlash name0) f
        (h' ▸ List.mem_cons_of_mem d (List.mem_cons_self f rest))
    have htr : trimOneSlash (d ++ '/' :: f) = d ++ '/' :: f := by
      cases d with
      | nil => exact absurd rfl hd
      | cons c d' =>
        have hc : ¬c = '/' := fun hcs => hdn (hcs ▸ List.mem_cons_self c d')
        simp [trimOneSlash, hc]
    have hsp : splitOnSlash (trimOneSlash (d ++ '/' :: f)) = d :: f :: [] := by
      rw [htr]
      show splitOnChar '/' (d ++ '/' :: f) = [d, f]
      rw [splitOnChar_append '/' f d hdn, splitOnChar_no_sep '/' f hfn]
    have htr0 : trimOneSlash (trimOneSlash name0) = trimOneSlash name0 :=
      trimOneSlash_eq_self _ d (f :: rest) h hd
    have hrec : getDoc env k env.defaultToc (trimOneSlash name0)
        = getDoc env k env.defaultToc (d ++ '/' :: f) := by
      refine ih env.defaultToc (trimOneSlash name0) ?_
      rw [htr0]
      exact h
    rw [getDoc_two_seg env k t name0 d f rest h,
        getDoc_two_seg env k t (d ++ '/' :: f) d f [] hsp, htr, hrec]

/-- C10 (witness): the three-segment path `g/s/extra` resolves exactly like
its truncation `g/s`. -/
theorem getDoc_ignores_extra_segments_witness :
    getDoc envW 3 tocFr (s2l "g/s/extra") = getDoc envW 3 tocFr (s2l "g" ++ '/' :: s2l "s") :=
  getDoc_ignores_extra_segments envW 3 tocFr (s2l "g/s/extra") (s2l "g") (s2l "s")
    [s2l "extra"] (by decide) (by decide)

/-! Helper lemmas about `Search`. -/

/-- A `Search` loop is the accumulator followed by the hits in node order. -/
theorem foldl_accHit {α β : Type} (g : α → Option β) :
    ∀ (l : List α) (acc : List β), l.foldl (accHit g) acc = acc ++ l.filterMap g := by
  intro l
  induction l with
  | nil => intro acc; simp
  | cons x xs ih =>
    intro acc
    simp only [List.foldl_cons, List.filterMap_cons, accHit]
    cases hg : g x with
    | none => simp [ih]
    | some r => simp [ih]

/-- A fold whose step appends a block per element is the accumulator
followed by the concatenation of the blocks. -/
theorem foldl_extend {α β : Type} (F : List β → α → List β) (g : α → List β)
    (hF : ∀ acc d, F acc d = acc ++ g d) :
    ∀ (l : List α) (acc : List β), l.foldl F acc = acc ++ l.flatMap g := by
  intro l
  induction l with
  | nil => intro acc; simp
  | cons x xs ih =>
    intro acc
    simp [List.foldl_cons, hF, ih]

/-- Decomposition of `Search`: for a non-empty query the result list is the
directory pass (in node order) followed by the file pass (in node order,
children in order). -/
theorem searchToc_eq (t : Toc) (q0 : Str) (h : q0 ≠ []) :
    searchToc t q0 =
      t.Nodes.filterMap (dirHit (toLowerStr q0)) ++
      t.Nodes.flatMap (fun d => d.Nodes.filterMap (fileHit (toLowerStr q0) d)) := by
  have h0 : ¬(q0.length = 0) := by rw [List.length_eq_zero]; exact h
  simp only [searchToc]
  rw [if_neg h0]
  rw [foldl_extend _ (fun d => d.Nodes.filterMap (fileHit (toLowerStr q0) d))
      (fun acc d => foldl_accHit (fileHit (toLowerStr q0) d) d.Nodes acc) t.Nodes _]
  rw [foldl_accHit (dirHit (toLowerStr q0)) t.Nodes []]
  simp

/-- Occurrence correctness of `strings.Index`: a returned index carries a
match and no earlier offset does. -/
theorem strIndex_first (pat : Str) :
    ∀ (l : Str) (i : Nat), strIndex pat l = some i →
      isPre pat (l.drop i) = true ∧ ∀ j, j < i → isPre pat (l.drop j) = false := by
  intro l
  induction l with
  | nil =>
    intro i h
    simp only [strIndex] at h
    by_cases hp : pat = []
    · rw [if_pos hp] at h
      injection h with h1
      subst hp
      constructor
      · cases h1; rfl
      · intro j hj
        omega
    · rw [if_neg hp] at h
      exact Option.noConfusion h
  | cons c cs ih =>
    intro i h
    simp only [strIndex] at h
    by_cases hp : isPre pat (c :: cs) = true
    · rw [if_pos hp] at h
      injection h with h1
      subst h1
      exact ⟨hp, fun j hj => absurd hj (by omega)⟩
    · rw [if_neg hp] at h
      cases hs : strIndex pat cs with
      | none => rw [hs] at h; exact Option.noConfusion h
      | some i' =>
        rw [hs] at h
        simp only [Option.map_some'] at h
        injection h with h1
        obtain ⟨h2, h3⟩ := ih i' hs
        subst h1
        refine ⟨by simpa using h2, ?_⟩
        intro j hj
        cases j with
        | zero => simpa using hp
        | succ j' => simpa using h3 j' (by omega)

set_option maxRecDepth 2000 in
/-- The snippet window is `[i - 20, min (i + L + 230) N)` in saturating
natural arithmetic. -/
theorem snippet_eq (text : Str) (i L : Nat) :
    snippet text i L = sliceStr text (i - 20) (min (i + L + 230) text.length) := by
  simp only [snippet, adjustRange]
  congr 1
  · split <;> omega
  · split <;> omega

/-! Claim theorems: `Search`. -/

/-- C7: for every non-empty query the result sequence of `Search` is all
directory-level matches (path = directory name, in node order) followed by
all file-level matches (path = dir/file, in node order) — directory
matches always precede file matches regardless of where the query occurs
in any text. -/
theorem search_dir_results_before_file_results (t : Toc) (q0 : Str) (h : q0 ≠ []) :
    searchToc t q0 =
      t.Nodes.filterMap (dirHit (toLowerStr q0)) ++
      t.Nodes.flatMap (fun d => d.Nodes.filterMap (fileHit (toLowerStr q0) d)) :=
  searchToc_eq t q0 h

/-- C7 (witness): on a concrete tree where the query occurs in both a
directory node and a file node, the result is the directory pass followed
by the file pass. -/
theorem search_dir_results_before_file_results_witness :
    searchToc tocS (s2l "beta") =
      tocS.Nodes.filterMap (dirHit (toLowerStr (s2l "beta"))) ++
      tocS.Nodes.flatMap (fun d => d.Nodes.filterMap (fileHit (toLowerStr (s2l "beta")) d)) :=
  search_dir_results_before_file_results tocS (s2l "beta") (by decide)

/-- C8: when the plain text of a node contains the lowercased query with first
occurrence at offset `i`, the node contributes exactly one result whose
snippet is the slice `[max(0, i-20), min(N, i+L+230))` of its text — both
as a directory node (path = its name, and the result is in the `Search`
output) and as a file node under any directory `d` (path = joined). -/
theorem search_first_occurrence_snippet (t : Toc) (q : Str) (n d : Node) (i : Nat)
    (hq : q ≠ [])
    (hidx : strIndex (toLowerStr q) n.Text = some i)
    (hmem : n ∈ t.Nodes) :
    firstOccurAt (toLowerStr q) n.Text i ∧
    dirHit (toLowerStr q) n = some ⟨n.Title, n.Name,
      sliceStr n.Text (i - 20) (min (i + q.length + 230) n.Text.length)⟩ ∧
    (⟨n.Title, n.Name,
      sliceStr n.Text (i - 20) (min (i + q.length + 230) n.Text.length)⟩ : SearchResult)
        ∈ searchToc t q ∧
    fileHit (toLowerStr q) d n = some ⟨n.Title, pathJoin d.Name n.Name,
      sliceStr n.Text (i - 20) (min (i + q.length + 230) n.Text.length)⟩ := by
  have hlen : (toLowerStr q).length = q.length := List.length_map q Char.toLower
  have hfo := strIndex_first (toLowerStr q) n.Text i hidx
  have hdir : dirHit (toLowerStr q) n = some ⟨n.Title, n.Name,
      sliceStr n.Text (i - 20) (min (i + q.length + 230) n.Text.length)⟩ := by
    simp only [dirHit, hidx, snippet_eq, hlen]
  refine ⟨⟨hfo.1, hfo.2⟩, hdir, ?_, ?_⟩
  · rw [searchToc_eq t q hq]
    refine List.mem_append.mpr (Or.inl ?_)
    exact List.mem_filterMap.mpr ⟨n, hmem, hdir⟩
  · simp only [fileHit, hidx, snippet_eq, hlen]

/-- C8 (witness): in the text of `sn1` the query `BETA` (lowercased) first
occurs at offset 6 and the snippet is the full short text. -/
theorem search_first_occurrence_snippet_witness :
    firstOccurAt (toLowerStr (s2l "BETA")) sn1.Text 6 ∧
    dirHit (toLowerStr (s2l "BETA")) sn1 = some ⟨sn1.Title, sn1.Name,
      sliceStr sn1.Text (6 - 20) (min (6 + (s2l "BETA").length + 230) sn1.Text.length)⟩ ∧
    (⟨sn1.Title, sn1.Name,
      sliceStr sn1.Text (6 - 20) (min (6 + (s2l "BETA").length + 230) sn1.Text.length)⟩
        : SearchResult) ∈ searchToc tocS (s2l "BETA") ∧
    fileHit (toLowerStr (s2l "BETA")) sn1 sn1 = some ⟨sn1.Title, pathJoin sn1.Name sn1.Name,
      sliceStr sn1.Text (6 - 20) (min (6 + (s2l "BETA").length + 230) sn1.Text.length)⟩ :=
  search_first_occurrence_snippet tocS (s2l "BETA") sn1 sn1 6
    (by decide) (by decide) (List.Mem.head _)

/-! Claim theorems: reload. -/

/-- C9: when the Loader fails, `ReloadDocs` leaves the installed registry
untouched and reports an error, so caller-side `GetDoc` and `Search`
against the registry return exactly what they returned before the failed
reload. -/
theorem reloadDocs_failure_keeps_registry (env : ReloadEnv) (tocs : Registry) (e : Str)
    (fs : Str → Bool) (dl lang nm q : Str) (fuel : Nat)
    (h : env.loadResult = .error e) :
    (reloadDocs env tocs).1 = tocs ∧
    (reloadDocs env tocs).2.isSome = true ∧
    getDocReg (reloadDocs env tocs).1 fs dl fuel lang nm = getDocReg tocs fs dl fuel lang nm ∧
    searchReg (reloadDocs env tocs).1 lang q = searchReg tocs lang q := by
  have hkeep : (reloadDocs env tocs).1 = tocs ∧ (reloadDocs env tocs).2.isSome = true := by
    simp only [reloadDocs]
    split
    · exact ⟨rfl, rfl⟩
    · split
      · exact ⟨rfl, rfl⟩
      · split
        · exact ⟨rfl, rfl⟩
        · rw [h]
          exact ⟨rfl, rfl⟩
  refine ⟨hkeep.1, hkeep.2, ?_, ?_⟩
  · rw [hkeep.1]
  · rw [hkeep.1]

/-- C9 (witness): a failed load of a malformed index leaves a concrete
two-language registry serving identical `GetDoc` and `Search` results. -/
theorem reloadDocs_failure_keeps_registry_witness :
    (reloadDocs env9 reg9).1 = reg9 ∧
    (reloadDocs env9 reg9).2.isSome = true ∧
    getDocReg (reloadDocs env9 reg9).1 (fun _ => true) (s2l "en") 2 (s2l "en") (s2l "g") =
      getDocReg reg9 (fun _ => true) (s2l "en") 2 (s2l "en") (s2l "g") ∧
    searchReg (reloadDocs env9 reg9).1 (s2l "en") (s2l "beta") =
      searchReg reg9 (s2l "en") (s2l "beta") :=
  reloadDocs_failure_keeps_registry env9 reg9 (s2l "Fail to load TOC.ini")
    (fun _ => true) (s2l "en") (s2l "en") (s2l "g") (s2l "beta") 2 rfl

end Peach
